import Mathlib

/-!
Verification of the CRF layer, model setup and driver logic of
`bilstm_ner.py` (a BiLSTM-CRF named-entity tagger).

Tags are indices in `Fin T` (the tagset, `tagset_size = T`).  Emission
matrices (`feats`, the LSTM output) are lists of vectors `Fin T → ℝ`,
one per sentence position.  The transition matrix `M : Fin T → Fin T → α`
follows the source convention: `M i j` is the score of transitioning
*to* `i` *from* `j`.  Float arithmetic is modelled by real (or, where the
code only adds and compares, arbitrary linearly ordered field) arithmetic.
-/

/-- `argmax(vec)`: index of the (first) maximal entry, as `torch.max(vec, 1)`
returns for a `1×T` tensor. -/
def argmaxIdx {T : ℕ} {α : Type*} [LinearOrder α] [NeZero T] (v : Fin T → α) : Fin T :=
  (List.finRange T).foldl (fun best i => if v best < v i then i else best)
    ⟨0, Nat.pos_of_ne_zero (NeZero.ne T)⟩

theorem argmax_foldl_ge_init {T : ℕ} {α : Type*} [LinearOrder α] (v : Fin T → α)
    (l : List (Fin T)) (b : Fin T) :
    v b ≤ v (l.foldl (fun best i => if v best < v i then i else best) b) := by
  induction l generalizing b with
  | nil => exact le_refl _
  | cons x xs ih =>
    simp only [List.foldl_cons]
    by_cases h : v b < v x
    · rw [if_pos h]; exact le_of_lt (lt_of_lt_of_le h (ih x))
    · rw [if_neg h]; exact ih b

theorem argmax_foldl_ge_mem {T : ℕ} {α : Type*} [LinearOrder α] (v : Fin T → α)
    (l : List (Fin T)) (b : Fin T) (x : Fin T) (hx : x ∈ l) :
    v x ≤ v (l.foldl (fun best i => if v best < v i then i else best) b) := by
  induction l generalizing b with
  | nil => cases hx
  | cons y ys ih =>
    simp only [List.foldl_cons]
    rcases List.mem_cons.mp hx with rfl | hmem
    · by_cases h : v b < v x
      · rw [if_pos h]; exact argmax_foldl_ge_init v ys x
      · rw [if_neg h]
        exact le_trans (le_of_not_lt h) (argmax_foldl_ge_init v ys b)
    · exact ih _ hmem

/-- Every entry is at most the entry at `argmaxIdx`. -/
theorem le_argmaxIdx {T : ℕ} {α : Type*} [LinearOrder α] [NeZero T] (v : Fin T → α)
    (i : Fin T) : v i ≤ v (argmaxIdx v) :=
  argmax_foldl_ge_mem v _ _ i (List.mem_finRange i)

/-- If one index strictly dominates all others, `argmaxIdx` picks it. -/
theorem argmaxIdx_eq_of_forall_lt {T : ℕ} {α : Type*} [LinearOrder α] [NeZero T]
    (v : Fin T → α) (j : Fin T) (h : ∀ i, i ≠ j → v i < v j) : argmaxIdx v = j := by
  by_contra hne
  exact absurd (le_argmaxIdx v j) (not_le.mpr (h _ hne))

/-- `log_sum_exp(vec)`: the numerically-stable log-sum-exp of the source,
`max + log (Σ exp (vec - max))` with the max taken through `argmax`. -/
noncomputable def log_sum_exp {T : ℕ} [NeZero T] (v : Fin T → ℝ) : ℝ :=
  v (argmaxIdx v) + Real.log (∑ j, Real.exp (v j - v (argmaxIdx v)))

/-- The stable form collapses to the naive log of the sum of exponentials. -/
theorem log_sum_exp_eq_log_sum {T : ℕ} [NeZero T] (v : Fin T → ℝ) :
    log_sum_exp v = Real.log (∑ j, Real.exp (v j)) := by
  unfold log_sum_exp
  have hpos : 0 < ∑ j, Real.exp (v j) :=
    Finset.sum_pos (fun j _ => Real.exp_pos _) Finset.univ_nonempty
  have hexp : ∀ j : Fin T, Real.exp (v j - v (argmaxIdx v))
      = Real.exp (v j) / Real.exp (v (argmaxIdx v)) := fun j => Real.exp_sub _ _
  rw [Finset.sum_congr rfl (fun j _ => hexp j), ← Finset.sum_div,
    Real.log_div (ne_of_gt hpos) (ne_of_gt (Real.exp_pos _)), Real.log_exp]
  ring

/-- Exponential of `log_sum_exp` is the plain sum of exponentials. -/
theorem exp_log_sum_exp {T : ℕ} [NeZero T] (v : Fin T → ℝ) :
    Real.exp (log_sum_exp v) = ∑ j, Real.exp (v j) := by
  rw [log_sum_exp_eq_log_sum, Real.exp_log
    (Finset.sum_pos (fun j _ => Real.exp_pos _) Finset.univ_nonempty)]

/-- C10: the numerically stable `log_sum_exp` helper is extensionally equal to
the naive definition: it returns `max(v) + log (Σ exp (v j - max v))`, which
equals `log (Σ exp (v j))`; the max subtraction does not change the value. -/
theorem log_sum_exp_spec {T : ℕ} [NeZero T] (v : Fin T → ℝ) :
    (∀ i, v i ≤ v (argmaxIdx v)) ∧
    log_sum_exp v = v (argmaxIdx v) + Real.log (∑ j, Real.exp (v j - v (argmaxIdx v))) ∧
    log_sum_exp v = Real.log (∑ j, Real.exp (v j)) :=
  ⟨le_argmaxIdx v, rfl, log_sum_exp_eq_log_sum v⟩

theorem log_sum_exp_spec_witness :
    (∀ i, (fun _ : Fin 2 => (0 : ℝ)) i ≤ (fun _ : Fin 2 => (0 : ℝ)) (argmaxIdx fun _ => 0)) ∧
    log_sum_exp (fun _ : Fin 2 => (0 : ℝ)) = (fun _ : Fin 2 => (0 : ℝ)) (argmaxIdx fun _ => 0) +
      Real.log (∑ _j : Fin 2, Real.exp ((0 : ℝ) - (fun _ : Fin 2 => (0 : ℝ)) (argmaxIdx fun _ => 0))) ∧
    log_sum_exp (fun _ : Fin 2 => (0 : ℝ)) = Real.log (∑ _j : Fin 2, Real.exp (0 : ℝ)) :=
  log_sum_exp_spec (fun _ : Fin 2 => (0 : ℝ))

/-- The accumulation loop of `_score_sentence`: with the tag sequence
conceptually prefixed by the previous tag `prev`, add
`transitions[tags[i+1], tags[i]] + feat[tags[i+1]]` for each position. -/
def scoreLoop {T : ℕ} {α : Type*} [LinearOrderedCommRing α] (M : Fin T → Fin T → α) :
    List (Fin T → α) → Fin T → List (Fin T) → α
  | [], _, _ => 0
  | _ :: _, _, [] => 0
  | f :: fs, prev, t :: ts => M t prev + f t + scoreLoop M fs t ts

/-- The last element of `prev :: tags`, i.e. `tags[-1]` after the source
prepends the start tag. -/
def lastTag {T : ℕ} (prev : Fin T) (tags : List (Fin T)) : Fin T :=
  tags.getLastD prev

/-- `_score_sentence(feats, tags)`: accumulate transition and emission scores
along `tags` (prefixed with START), then add the STOP transition from the
final tag. -/
def scoreSentence {T : ℕ} {α : Type*} [LinearOrderedCommRing α] (M : Fin T → Fin T → α)
    (START STOP : Fin T) (feats : List (Fin T → α)) (tags : List (Fin T)) : α :=
  scoreLoop M feats START tags + M STOP (lastTag START tags)

/-- Spec-side formula for the gold score, written exactly as the spec states
it: the sum over `i = 0..L-1` of `M[tags[i+1]][tags[i]] + E[i][tags[i+1]]`
over the START-prefixed sequence, plus the final `M[STOP][tags[L-1]]`. -/
def specGoldScore {T : ℕ} {α : Type*} [LinearOrderedCommRing α] (M : Fin T → Fin T → α)
    (START STOP : Fin T) (feats : List (Fin T → α)) (tags : List (Fin T)) : α :=
  (∑ i : Fin feats.length,
      (M ((START :: tags).getD (i + 1) START) ((START :: tags).getD i START)
        + (feats.get i) ((START :: tags).getD (i + 1) START)))
    + M STOP ((START :: tags).getD feats.length START)

theorem scoreLoop_eq_sum {T : ℕ} {α : Type*} [LinearOrderedCommRing α] (M : Fin T → Fin T → α)
    (feats : List (Fin T → α)) :
    ∀ (tags : List (Fin T)) (prev : Fin T), tags.length = feats.length →
      scoreLoop M feats prev tags
        = ∑ i : Fin feats.length,
            (M ((prev :: tags).getD (i + 1) prev) ((prev :: tags).getD i prev)
              + (feats.get i) ((prev :: tags).getD (i + 1) prev)) := by
  induction feats with
  | nil =>
    intro tags prev h
    simp [scoreLoop]
  | cons f fs ih =>
    intro tags prev h
    cases tags with
    | nil => simp at h
    | cons t ts =>
      have hlen : ts.length = fs.length := by simpa using h
      show M t prev + f t + scoreLoop M fs t ts = _
      rw [ih ts t hlen]
      simp only [List.length_cons]
      rw [Fin.sum_univ_succ]
      congr 1
      apply Finset.sum_congr rfl
      intro i _
      have hts : (i : ℕ) < ts.length := by have := i.isLt; omega
      have hcons : (i : ℕ) < (t :: ts).length := by simp only [List.length_cons]; omega
      simp only [Fin.val_succ, List.getD_cons_succ, List.get_eq_getElem,
        List.getElem_cons_succ,
        List.getD_eq_getElem ts t hts, List.getD_eq_getElem ts prev hts,
        List.getD_eq_getElem (t :: ts) t hcons, List.getD_eq_getElem (t :: ts) prev hcons]

/-- The last element of the START-prefixed sequence is its indexed entry `L`
when the sequence has length `L`. -/
theorem lastTag_eq_getD {T : ℕ} (prev : Fin T) (tags : List (Fin T)) :
    lastTag prev tags = (prev :: tags).getD tags.length prev := by
  induction tags generalizing prev with
  | nil => rfl
  | cons t ts ih =>
    show (t :: ts).getLastD prev = _
    rw [List.getLastD_cons]
    have hih := ih t
    simp only [lastTag] at hih
    simp only [List.length_cons, List.getD_cons_succ]
    have h1 : ts.length < (t :: ts).length := by simp
    rw [List.getD_eq_getElem _ _ h1] at hih
    rw [List.getD_eq_getElem _ _ h1]
    exact hih

/-- C2: for tags of matching length, `_score_sentence` returns exactly the
sum over positions of `M[tags[i+1]][tags[i]] + E[i][tags[i+1]]` on the
START-prefixed sequence, plus the final transition `M[STOP][tags[L-1]]`. -/
theorem scoreSentence_spec {T : ℕ} {α : Type*} [LinearOrderedCommRing α]
    (M : Fin T → Fin T → α) (START STOP : Fin T) (feats : List (Fin T → α))
    (tags : List (Fin T)) (h : tags.length = feats.length) :
    scoreSentence M START STOP feats tags = specGoldScore M START STOP feats tags := by
  unfold scoreSentence specGoldScore
  rw [scoreLoop_eq_sum M feats tags START h, lastTag_eq_getD, h]

theorem scoreSentence_spec_witness :
    scoreSentence (fun _ _ => (1 : ℤ)) (0 : Fin 3) 2
        ([fun _ => 5, fun _ => 7] : List (Fin 3 → ℤ)) ([1, 1] : List (Fin 3))
      = specGoldScore (fun _ _ => (1 : ℤ)) 0 2
        ([fun _ => 5, fun _ => 7] : List (Fin 3 → ℤ)) ([1, 1] : List (Fin 3)) :=
  scoreSentence_spec (fun _ _ => (1 : ℤ)) 0 2
    ([fun _ => 5, fun _ => 7] : List (Fin 3 → ℤ)) ([1, 1] : List (Fin 3)) rfl

theorem lastTag_cons {T : ℕ} (prev t : Fin T) (ts : List (Fin T)) :
    lastTag prev (t :: ts) = lastTag t ts :=
  List.getLastD_cons _ _ _

/-- Pull a finite sum out of (or into) a list sum. -/
theorem list_sum_finset_sum_comm {ι β : Type*} (s : Finset ι) (l : List β)
    (g : ι → β → ℝ) :
    (l.map (fun x => ∑ j ∈ s, g j x)).sum = ∑ j ∈ s, (l.map (g j)).sum := by
  induction l with
  | nil => simp
  | cons x xs ih => simp [ih, Finset.sum_add_distrib]

/-- Summing a mapped `flatMap` equals summing the per-element mapped sums. -/
theorem sum_map_flatMap {β γ : Type*} (l : List β) (h : β → List γ) (g : γ → ℝ) :
    ((l.flatMap h).map g).sum = (l.map (fun x => ((h x).map g).sum)).sum := by
  induction l with
  | nil => simp
  | cons x xs ih => simp [List.flatMap_cons, ih]

/-- `init_alphas` of `_forward_alg`: a length-T vector that is `0.` at the
START index and the `-10000.` sentinel elsewhere. -/
noncomputable def initAlphas {T : ℕ} (START : Fin T) : Fin T → ℝ :=
  fun k => if k = START then 0 else -10000

/-- One position of the forward loop: entry `k` of the new forward variable is
`log_sum_exp (forward_var + transitions[k] + feat[k])`. -/
noncomputable def forwardStep {T : ℕ} [NeZero T] (M : Fin T → Fin T → ℝ)
    (fv : Fin T → ℝ) (feat : Fin T → ℝ) : Fin T → ℝ :=
  fun k => log_sum_exp (fun j => fv j + M k j + feat k)

/-- `_forward_alg(feats)`: fold the forward step over the sentence, add the
STOP-row transition scores, and take a final log-sum-exp. -/
noncomputable def forward_alg {T : ℕ} [NeZero T] (M : Fin T → Fin T → ℝ)
    (START STOP : Fin T) (feats : List (Fin T → ℝ)) : ℝ :=
  log_sum_exp (fun k => (feats.foldl (forwardStep M) (initAlphas START)) k + M STOP k)

/-- All tag sequences of a given length (every position ranges over the whole
tagset). -/
def allSeqs (T : ℕ) : ℕ → List (List (Fin T))
  | 0 => [[]]
  | L + 1 => (List.finRange T).flatMap (fun t => (allSeqs T L).map (fun s => t :: s))

/-- The claim's closed form: log of the sum, over all length-L tag sequences,
of exponentiated path scores with START/STOP boundary transitions. -/
noncomputable def startAnchoredLogSum {T : ℕ} (M : Fin T → Fin T → ℝ)
    (START STOP : Fin T) (feats : List (Fin T → ℝ)) : ℝ :=
  Real.log (((allSeqs T feats.length).map
    (fun s => Real.exp (scoreSentence M START STOP feats s))).sum)

/-- The exact closed form of the code: every path additionally chooses an
initial tag `j`, weighted by the init vector (0 at START, -10000 elsewhere). -/
noncomputable def sentinelPathSumExp {T : ℕ} (M : Fin T → Fin T → ℝ)
    (START STOP : Fin T) (feats : List (Fin T → ℝ)) : ℝ :=
  ∑ j, ((allSeqs T feats.length).map
    (fun s => Real.exp (initAlphas START j + scoreLoop M feats j s
      + M STOP (lastTag j s)))).sum

theorem forward_fold_exp {T : ℕ} [NeZero T] (M : Fin T → Fin T → ℝ) (STOP : Fin T) :
    ∀ (feats : List (Fin T → ℝ)) (fv : Fin T → ℝ),
      ∑ k, Real.exp ((feats.foldl (forwardStep M) fv) k + M STOP k)
        = ∑ j, ((allSeqs T feats.length).map
            (fun s => Real.exp (fv j + scoreLoop M feats j s + M STOP (lastTag j s)))).sum := by
  intro feats
  induction feats with
  | nil =>
    intro fv
    simp [allSeqs, scoreLoop, lastTag]
  | cons f fs ih =>
    intro fv
    rw [List.foldl_cons, ih (forwardStep M fv f)]
    have hstep : ∀ (j : Fin T) (s : List (Fin T)),
        Real.exp (forwardStep M fv f j + scoreLoop M fs j s + M STOP (lastTag j s))
          = ∑ i, Real.exp (fv i + (M j i + f j
              + (scoreLoop M fs j s + M STOP (lastTag j s)))) := by
      intro j s
      have h1 : forwardStep M fv f j + scoreLoop M fs j s + M STOP (lastTag j s)
          = forwardStep M fv f j + (scoreLoop M fs j s + M STOP (lastTag j s)) := by ring
      rw [h1, Real.exp_add]
      show Real.exp (log_sum_exp fun i => fv i + M j i + f j) * _ = _
      rw [exp_log_sum_exp, Finset.sum_mul]
      apply Finset.sum_congr rfl
      intro i _
      rw [← Real.exp_add]
      congr 1
      ring
    have hmaps : ∀ j : Fin T,
        ((allSeqs T fs.length).map
          (fun s => Real.exp (forwardStep M fv f j + scoreLoop M fs j s
            + M STOP (lastTag j s)))).sum
        = ∑ i, ((allSeqs T fs.length).map
            (fun s => Real.exp (fv i + (M j i + f j
              + (scoreLoop M fs j s + M STOP (lastTag j s)))))).sum := by
      intro j
      rw [List.map_congr_left (fun s _ => hstep j s), list_sum_finset_sum_comm]
    rw [Finset.sum_congr rfl (fun j _ => hmaps j), Finset.sum_comm]
    apply Finset.sum_congr rfl
    intro i _
    show _ = ((allSeqs T (f :: fs).length).map _).sum
    rw [show (f :: fs).length = fs.length + 1 from rfl]
    show _ = ((allSeqs T (fs.length + 1)).map _).sum
    rw [show allSeqs T (fs.length + 1)
        = (List.finRange T).flatMap (fun t => (allSeqs T fs.length).map (fun s => t :: s))
        from rfl]
    rw [sum_map_flatMap, Fin.sum_univ_def]
    apply congrArg List.sum
    apply List.map_congr_left
    intro j _
    rw [List.map_map]
    apply congrArg List.sum
    apply List.map_congr_left
    intro s _
    show Real.exp (fv i + (M j i + f j + (scoreLoop M fs j s + M STOP (lastTag j s))))
      = Real.exp (fv i + scoreLoop M (f :: fs) i (j :: s) + M STOP (lastTag i (j :: s)))
    rw [lastTag_cons]
    show _ = Real.exp (fv i + (M j i + f j + scoreLoop M fs j s) + M STOP (lastTag j s))
    congr 1
    ring

/-- The forward algorithm equals the log of the init-weighted path sum: the
`-10000` sentinel entries of the init vector enter as additive path weights. -/
theorem forward_alg_eq_log_sentinelSum {T : ℕ} [NeZero T] (M : Fin T → Fin T → ℝ)
    (START STOP : Fin T) (feats : List (Fin T → ℝ)) :
    forward_alg M START STOP feats = Real.log (sentinelPathSumExp M START STOP feats) := by
  unfold forward_alg sentinelPathSumExp
  rw [log_sum_exp_eq_log_sum]
  congr 1
  exact forward_fold_exp M STOP feats (initAlphas START)

/-- Every tag list is enumerated by `allSeqs` at its own length. -/
theorem mem_allSeqs {T : ℕ} : ∀ s : List (Fin T), s ∈ allSeqs T s.length := by
  intro s
  induction s with
  | nil => simp [allSeqs]
  | cons t ts ih =>
    show t :: ts ∈ allSeqs T (ts.length + 1)
    unfold allSeqs
    rw [List.mem_flatMap]
    exact ⟨t, List.mem_finRange t, List.mem_map_of_mem _ ih⟩

/-- `__init__`: start from the random draw `M₀`, overwrite the whole START row
with -10000, then the whole STOP column with -10000. -/
def initTransitions {T : ℕ} {α : Type*} [LinearOrderedCommRing α] (M₀ : Fin T → Fin T → α)
    (START STOP : Fin T) : Fin T → Fin T → α :=
  fun i j => if j = STOP then -10000 else if i = START then -10000 else M₀ i j

/-- `neg_log_likelihood(feats, tags) = forward score - gold score`. -/
noncomputable def negLogLikelihood {T : ℕ} [NeZero T] (M : Fin T → Fin T → ℝ)
    (START STOP : Fin T) (feats : List (Fin T → ℝ)) (tags : List (Fin T)) : ℝ :=
  forward_alg M START STOP feats - scoreSentence M START STOP feats tags

/-- C3: the forward score dominates the gold-path score for any legal tag
sequence, so the negative log likelihood is nonnegative. -/
theorem forward_ge_gold {T : ℕ} [NeZero T] (M : Fin T → Fin T → ℝ)
    (START STOP : Fin T) (feats : List (Fin T → ℝ)) (tags : List (Fin T))
    (h : tags.length = feats.length) :
    scoreSentence M START STOP feats tags ≤ forward_alg M START STOP feats ∧
    0 ≤ negLogLikelihood M START STOP feats tags := by
  have key : scoreSentence M START STOP feats tags ≤ forward_alg M START STOP feats := by
    rw [forward_alg_eq_log_sentinelSum]
    have hmem : tags ∈ allSeqs T feats.length := h ▸ mem_allSeqs tags
    have hfun : Real.exp (initAlphas START START + scoreLoop M feats START tags
        + M STOP (lastTag START tags)) = Real.exp (scoreSentence M START STOP feats tags) := by
      simp [initAlphas, scoreSentence]
    have hterm : Real.exp (scoreSentence M START STOP feats tags)
        ≤ ((allSeqs T feats.length).map (fun s => Real.exp (initAlphas START START
            + scoreLoop M feats START s + M STOP (lastTag START s)))).sum := by
      refine hfun ▸ List.single_le_sum (fun x hx => ?_) _ (List.mem_map_of_mem _ hmem)
      rcases List.mem_map.mp hx with ⟨s, _, rfl⟩
      exact le_of_lt (Real.exp_pos _)
    have hsum : ((allSeqs T feats.length).map (fun s => Real.exp (initAlphas START START
          + scoreLoop M feats START s + M STOP (lastTag START s)))).sum
        ≤ sentinelPathSumExp M START STOP feats := by
      unfold sentinelPathSumExp
      have hnn : ∀ j : Fin T, 0 ≤ ((allSeqs T feats.length).map
          (fun s => Real.exp (initAlphas START j + scoreLoop M feats j s
            + M STOP (lastTag j s)))).sum := by
        intro j
        apply List.sum_nonneg
        intro x hx
        rcases List.mem_map.mp hx with ⟨s, _, rfl⟩
        exact le_of_lt (Real.exp_pos _)
      exact @Finset.single_le_sum (Fin T) ℝ _
        (fun j => ((allSeqs T feats.length).map
          (fun s => Real.exp (initAlphas START j + scoreLoop M feats j s
            + M STOP (lastTag j s)))).sum) Finset.univ
        (fun j _ => hnn j) START (Finset.mem_univ START)
    calc scoreSentence M START STOP feats tags
        = Real.log (Real.exp (scoreSentence M START STOP feats tags)) :=
          (Real.log_exp _).symm
      _ ≤ Real.log (sentinelPathSumExp M START STOP feats) :=
          Real.log_le_log (Real.exp_pos _) (le_trans hterm hsum)
  refine ⟨key, ?_⟩
  unfold negLogLikelihood
  linarith

theorem forward_ge_gold_witness :
    scoreSentence (initTransitions (fun _ _ => 0) (3 : Fin 5) 4) 3 4
        ([fun _ => 0] : List (Fin 5 → ℝ)) ([0] : List (Fin 5))
      ≤ forward_alg (initTransitions (fun _ _ => 0) (3 : Fin 5) 4) 3 4
        ([fun _ => 0] : List (Fin 5 → ℝ)) ∧
    0 ≤ negLogLikelihood (initTransitions (fun _ _ => 0) (3 : Fin 5) 4) 3 4
        ([fun _ => 0] : List (Fin 5 → ℝ)) ([0] : List (Fin 5)) :=
  forward_ge_gold (initTransitions (fun _ _ => 0) (3 : Fin 5) 4) 3 4
    ([fun _ => 0] : List (Fin 5 → ℝ)) ([0] : List (Fin 5)) rfl

/-- C1 (amended): `_forward_alg` starts from the init vector (0 at START,
-10000 sentinel elsewhere), for each position applies the stable
log-sum-exp recurrence, adds the STOP row and takes a final log-sum-exp;
the result equals the log of the sum of exponentiated path scores over all
length-L tag sequences, where each path additionally chooses an initial tag
weighted additively by the init vector.  (With the finite -10000 sentinel the
non-START initial choices contribute tiny but nonzero mass, so the exact
value is this init-weighted sum, not the START-anchored one.) -/
theorem forward_alg_spec {T : ℕ} [NeZero T] (M : Fin T → Fin T → ℝ)
    (START STOP : Fin T) (feats : List (Fin T → ℝ)) :
    forward_alg M START STOP feats = Real.log (sentinelPathSumExp M START STOP feats) :=
  forward_alg_eq_log_sentinelSum M START STOP feats

theorem forward_alg_spec_witness :
    forward_alg (initTransitions (fun _ _ => 0) (3 : Fin 5) 4) 3 4
        ([fun _ => 0] : List (Fin 5 → ℝ))
      = Real.log (sentinelPathSumExp (initTransitions (fun _ _ => 0) (3 : Fin 5) 4) 3 4
        ([fun _ => 0] : List (Fin 5 → ℝ))) :=
  forward_alg_spec (initTransitions (fun _ _ => 0) (3 : Fin 5) 4) 3 4
    ([fun _ => 0] : List (Fin 5 → ℝ))

/-- C1 (counterexample): on the tagset of the program (T = 5, START = 3,
STOP = 4), with the transition matrix produced by `__init__` from an all-zero
draw and a single all-zero emission row, `_forward_alg` does *not* equal the
log of the sum of exponentiated START/STOP-anchored path scores: the -10000
init sentinel adds strictly positive extra mass. -/
theorem forward_alg_counterexample :
    forward_alg (initTransitions (fun _ _ => 0) (3 : Fin 5) 4) 3 4
        ([fun _ => 0] : List (Fin 5 → ℝ))
      ≠ startAnchoredLogSum (initTransitions (fun _ _ => 0) (3 : Fin 5) 4) 3 4
        ([fun _ => 0] : List (Fin 5 → ℝ)) := by
  have hseqs : allSeqs 5 (([fun _ => 0] : List (Fin 5 → ℝ)).length)
      = [[0], [1], [2], [3], [4]] := by decide
  have e1 := Real.exp_pos (-10000 : ℝ)
  have e2 := Real.exp_pos (-20000 : ℝ)
  have e3 := Real.exp_pos (-30000 : ℝ)
  rw [forward_alg_eq_log_sentinelSum]
  unfold startAnchoredLogSum
  apply ne_of_gt
  refine Real.log_lt_log ?_ ?_
  · rw [hseqs]
    simp only [List.map_cons, List.map_nil, List.sum_cons, List.sum_nil]
    positivity
  · unfold sentinelPathSumExp
    rw [hseqs]
    simp [Fin.sum_univ_five, scoreSentence, scoreLoop, lastTag, List.getLastD,
      initAlphas, initTransitions]
    norm_num
    linarith

/-- C7: immediately after `__init__`, the transition matrix has -10000 in
every entry of the START row (transitions into START) and every entry of the
STOP column (transitions out of STOP), while every other entry is the random
draw, unchanged (hence finite in this real-number model); -10000 is the large
dominating negative stand-in for -infinity. -/
theorem initTransitions_spec {T : ℕ} {α : Type*} [LinearOrderedCommRing α]
    (M₀ : Fin T → Fin T → α) (START STOP : Fin T) :
    (∀ j, initTransitions M₀ START STOP START j = -10000) ∧
    (∀ i, initTransitions M₀ START STOP i STOP = -10000) ∧
    (∀ i j, i ≠ START → j ≠ STOP → initTransitions M₀ START STOP i j = M₀ i j) := by
  refine ⟨fun j => ?_, fun i => ?_, fun i j hi hj => ?_⟩
  · unfold initTransitions
    split <;> simp
  · simp [initTransitions]
  · simp [initTransitions, hi, hj]

theorem initTransitions_spec_witness :
    (∀ j, initTransitions (fun _ _ => (7 : ℤ)) (3 : Fin 5) 4 3 j = -10000) ∧
    (∀ i, initTransitions (fun _ _ => (7 : ℤ)) (3 : Fin 5) 4 i 4 = -10000) ∧
    ((0 : Fin 5) ≠ 3 → (1 : Fin 5) ≠ 4 →
      initTransitions (fun _ _ => (7 : ℤ)) (3 : Fin 5) 4 0 1 = 7) :=
  ⟨(initTransitions_spec (fun _ _ => (7 : ℤ)) 3 4).1,
   (initTransitions_spec (fun _ _ => (7 : ℤ)) 3 4).2.1,
   fun h1 h2 => (initTransitions_spec (fun _ _ => (7 : ℤ)) 3 4).2.2 0 1 h1 h2⟩

/-- The failure kinds the spec distinguishes for `torch.load`. -/
inductive LoadFailure where
  | fileNotFound
  | corruptFile
deriving DecidableEq

/-- The two ways the driver can continue after the load attempt. -/
inductive MainPath (Model : Type) where
  | useLoaded (m : Model)
  | trainThenSave

/-- The `try: model = model_load() / except: <train>` of `main`: a bare
`except:` catches every exception kind, so any failure continues with
training. -/
def mainBranch {Model : Type} : Except LoadFailure Model → MainPath Model
  | .ok m => .useLoaded m
  | .error _ => .trainThenSave

/-- C9 (counterexample): a load failure other than "file not found" — e.g. a
corrupt model file — does *not* propagate: the bare `except:` sends it to the
training path as well. -/
theorem mainBranch_counterexample :
    mainBranch (Except.error LoadFailure.corruptFile : Except LoadFailure Unit)
      = MainPath.trainThenSave := rfl

/-- C9 (amended): when loading the persisted model fails — because the file
does not exist or for any other reason — the program falls through to the
training path; the bare `except:` does not distinguish failure kinds and
nothing propagates.  A successful load is used directly. -/
theorem mainBranch_spec {Model : Type} :
    (∀ e : LoadFailure, mainBranch (Except.error e : Except LoadFailure Model)
      = MainPath.trainThenSave) ∧
    (∀ m : Model, mainBranch (.ok m) = .useLoaded m) :=
  ⟨fun _ => rfl, fun _ => rfl⟩

/-- The shard boundaries of `main`: with `k, m = divmod(N, P)`, shard `i`
starts at `i*k + min(i, m)`. -/
def shardStart (k m i : ℕ) : ℕ :=
  i * k + min i m

/-- The corpus partition of `main`:
`list(data[i*k+min(i,m):(i+1)*k+min(i+1,m)] for i in range(P))`. -/
def fragmentData {β : Type*} (data : List β) (P : ℕ) : List (List β) :=
  let k := data.length / P
  let m := data.length % P
  (List.range P).map (fun i =>
    (data.drop (shardStart k m i)).take (shardStart k m (i + 1) - shardStart k m i))

theorem shardStart_mono (k m : ℕ) : ∀ i, shardStart k m i ≤ shardStart k m (i + 1) := by
  intro i
  unfold shardStart
  have h : (i + 1) * k = i * k + k := by ring
  omega

theorem shardStart_zero_le (k m : ℕ) : ∀ i, shardStart k m 0 ≤ shardStart k m i := by
  intro i
  induction i with
  | zero => exact le_refl _
  | succ n ih => exact le_trans ih (shardStart_mono k m n)

/-- Concatenating consecutive slices along a monotone boundary function gives
one big slice. -/
theorem flatten_slices {β : Type*} (l : List β) (g : ℕ → ℕ)
    (hmono : ∀ i, g i ≤ g (i + 1)) (h0 : ∀ i, g 0 ≤ g i) :
    ∀ P, ((List.range P).map (fun i => (l.drop (g i)).take (g (i + 1) - g i))).flatten
      = (l.drop (g 0)).take (g P - g 0) := by
  intro P
  induction P with
  | zero => simp
  | succ n ih =>
    rw [List.range_succ, List.map_append, List.flatten_append, ih]
    simp only [List.map_cons, List.map_nil, List.flatten_cons, List.flatten_nil,
      List.append_nil]
    have h0n : g 0 ≤ g n := h0 n
    have hnn : g n ≤ g (n + 1) := hmono n
    rw [show g (n + 1) - g 0 = (g n - g 0) + (g (n + 1) - g n) from by omega]
    rw [List.take_add]
    congr 1
    rw [List.drop_drop]
    rw [show g 0 + (g n - g 0) = g n from by omega]

theorem fragment_slice_length {β : Type*} (data : List β) (P k m i : ℕ)
    (hdm : P * k + m = data.length) (hmP : m < P) (hi : i < P) :
    ((data.drop (shardStart k m i)).take (shardStart k m (i + 1) - shardStart k m i)).length
      = if i < m then k + 1 else k := by
  rw [List.length_take, List.length_drop]
  have hik : (i + 1) * k = i * k + k := by ring
  have hPk : (i + 1) * k ≤ P * k := Nat.mul_le_mul_right k (by omega)
  unfold shardStart
  by_cases him : i < m
  · rw [if_pos him, min_eq_left (le_of_lt him), min_eq_left (by omega : i + 1 ≤ m),
      show (i + 1) * k + (i + 1) - (i * k + i) = k + 1 from by omega]
    exact min_eq_left (by omega)
  · rw [if_neg him, min_eq_right (by omega : m ≤ i), min_eq_right (by omega : m ≤ i + 1),
      show (i + 1) * k + m - (i * k + m) = k from by omega]
    exact min_eq_left (by omega)

theorem shardStart_total (P k m N : ℕ) (hdm : P * k + m = N) (hmP : m < P) :
    shardStart k m P = N := by
  unfold shardStart
  rw [min_eq_right (le_of_lt hmP)]
  exact hdm

theorem shard_size_mono (k m i j : ℕ) (hij : i ≤ j) :
    (if j < m then k + 1 else k) ≤ if i < m then k + 1 else k := by
  by_cases him : i < m <;> by_cases hjm : j < m <;> simp [him, hjm] <;> omega

theorem shard_size_diff (k m i j : ℕ) :
    (if i < m then k + 1 else k) ≤ (if j < m then k + 1 else k) + 1 := by
  by_cases him : i < m <;> by_cases hjm : j < m <;> simp [him, hjm] <;> omega

/-- C8: the corpus partition is balanced: shard `i` has size `floor(N/P)+1`
for `i < N mod P` and `floor(N/P)` otherwise (larger shards first), sizes are
nonincreasing and differ by at most one, they sum to `N`, and concatenating
the shards in order restores the corpus; in particular 10 examples over 4
workers give sizes `[3, 3, 2, 2]`. -/
theorem fragmentData_spec {β : Type*} (data : List β) (P : ℕ) (hP : 0 < P) :
    ((fragmentData data P).map List.length
      = (List.range P).map
          (fun i => if i < data.length % P then data.length / P + 1 else data.length / P)) ∧
    (∀ i j, i ≤ j → j < P →
      ((fragmentData data P).map List.length).getD j 0
        ≤ ((fragmentData data P).map List.length).getD i 0) ∧
    (∀ a ∈ (fragmentData data P).map List.length,
      ∀ b ∈ (fragmentData data P).map List.length, a ≤ b + 1) ∧
    ((fragmentData data P).map List.length).sum = data.length ∧
    (fragmentData data P).flatten = data ∧
    (fragmentData (List.range 10) 4).map List.length = [3, 3, 2, 2] := by
  obtain ⟨k, m, hk, hm, hdm, hmP⟩ : ∃ k m, data.length / P = k ∧ data.length % P = m ∧
      P * k + m = data.length ∧ m < P :=
    ⟨_, _, rfl, rfl, Nat.div_add_mod data.length P, Nat.mod_lt _ hP⟩
  have hsizes : (fragmentData data P).map List.length
      = (List.range P).map (fun i => if i < m then k + 1 else k) := by
    unfold fragmentData
    rw [hk, hm, List.map_map]
    apply List.map_congr_left
    intro i hi
    exact fragment_slice_length data P k m i hdm hmP (List.mem_range.mp hi)
  have hflat : (fragmentData data P).flatten = data := by
    unfold fragmentData
    rw [hk, hm,
      flatten_slices data (shardStart k m) (shardStart_mono k m) (shardStart_zero_le k m) P,
      show shardStart k m 0 = 0 from by simp [shardStart],
      shardStart_total P k m data.length hdm hmP,
      List.drop_zero, Nat.sub_zero, List.take_length]
  refine ⟨by rw [hk, hm]; exact hsizes, ?_, ?_, ?_, hflat, by decide⟩
  · intro i j hij hjP
    rw [hsizes]
    have hi' : i < P := lt_of_le_of_lt hij hjP
    have hgi : ((List.range P).map (fun i => if i < m then k + 1 else k)).getD i 0
        = if i < m then k + 1 else k := by
      have hlen : i < ((List.range P).map (fun i => if i < m then k + 1 else k)).length := by
        simpa using hi'
      rw [List.getD_eq_getElem _ _ hlen, List.getElem_map, List.getElem_range]
    have hgj : ((List.range P).map (fun i => if i < m then k + 1 else k)).getD j 0
        = if j < m then k + 1 else k := by
      have hlen : j < ((List.range P).map (fun i => if i < m then k + 1 else k)).length := by
        simpa using hjP
      rw [List.getD_eq_getElem _ _ hlen, List.getElem_map, List.getElem_range]
    rw [hgi, hgj]
    exact shard_size_mono k m i j hij
  · intro a ha b hb
    rw [hsizes] at ha hb
    rcases List.mem_map.mp ha with ⟨i, _, rfl⟩
    rcases List.mem_map.mp hb with ⟨j, _, rfl⟩
    exact shard_size_diff k m i j
  · rw [← List.length_flatten, hflat]

theorem fragmentData_spec_witness :
    (((fragmentData (List.range 10) 4).map List.length
      = (List.range 4).map
          (fun i => if i < (List.range 10).length % 4 then (List.range 10).length / 4 + 1
            else (List.range 10).length / 4)) ∧
    (∀ i j, i ≤ j → j < 4 →
      ((fragmentData (List.range 10) 4).map List.length).getD j 0
        ≤ ((fragmentData (List.range 10) 4).map List.length).getD i 0) ∧
    (∀ a ∈ (fragmentData (List.range 10) 4).map List.length,
      ∀ b ∈ (fragmentData (List.range 10) 4).map List.length, a ≤ b + 1) ∧
    ((fragmentData (List.range 10) 4).map List.length).sum = (List.range 10).length ∧
    (fragmentData (List.range 10) 4).flatten = List.range 10 ∧
    (fragmentData (List.range 10) 4).map List.length = [3, 3, 2, 2]) :=
  fragmentData_spec (List.range 10) 4 (by decide)

/-- `init_vvars` of `_viterbi_decode`: 0 at START, the -10000 sentinel
elsewhere. -/
def initVvars {T : ℕ} {α : Type*} [LinearOrderedCommRing α] (START : Fin T) : Fin T → α :=
  fun k => if k = START then 0 else -10000

/-- One position of the Viterbi loop: for each `next_tag` pick the best
previous tag by `argmax` over `forward_var + transitions[next_tag]`, record
it as a backpointer, keep its score, and add the emission afterwards. -/
def viterbiStep {T : ℕ} {α : Type*} [LinearOrderedCommRing α] [NeZero T]
    (M : Fin T → Fin T → α) (acc : (Fin T → α) × List (Fin T → Fin T))
    (feat : Fin T → α) : (Fin T → α) × List (Fin T → Fin T) :=
  let fv := acc.1
  let bp : Fin T → Fin T := fun k => argmaxIdx (fun j => fv j + M k j)
  (fun k => fv (bp k) + M k (bp k) + feat k, acc.2 ++ [bp])

/-- The Viterbi loop over the sentence, starting from `init_vvars` and an
empty backpointer list. -/
def viterbiFold {T : ℕ} {α : Type*} [LinearOrderedCommRing α] [NeZero T]
    (M : Fin T → Fin T → α) (START : Fin T) (feats : List (Fin T → α)) :
    (Fin T → α) × List (Fin T → Fin T) :=
  feats.foldl (viterbiStep M) (initVvars START, [])

/-- `terminal_var`: the final forward variable plus the STOP transition row. -/
def viterbiTerminalVar {T : ℕ} {α : Type*} [LinearOrderedCommRing α] [NeZero T]
    (M : Fin T → Fin T → α) (START STOP : Fin T) (feats : List (Fin T → α)) :
    Fin T → α :=
  fun k => (viterbiFold M START feats).1 k + M STOP k

/-- `best_tag_id = argmax(terminal_var)`. -/
def viterbiBest {T : ℕ} {α : Type*} [LinearOrderedCommRing α] [NeZero T]
    (M : Fin T → Fin T → α) (START STOP : Fin T) (feats : List (Fin T → α)) : Fin T :=
  argmaxIdx (viterbiTerminalVar M START STOP feats)

/-- The backpointer walk of `_viterbi_decode`: starting from the final best
tag, repeatedly apply the recorded backpointers (most recent first),
collecting the visited tags tail-first. -/
def traceAux {T : ℕ} : List (Fin T → Fin T) → Fin T → List (Fin T)
  | [], b => [b]
  | p :: rest, b => b :: traceAux rest (p b)

/-- `best_path` just before the pop: the full tail-first walk (ending with the
traced-back tag at position -1). -/
def viterbiFullPath {T : ℕ} {α : Type*} [LinearOrderedCommRing α] [NeZero T]
    (M : Fin T → Fin T → α) (START STOP : Fin T) (feats : List (Fin T → α)) :
    List (Fin T) :=
  traceAux (viterbiFold M START feats).2.reverse (viterbiBest M START STOP feats)

/-- `_viterbi_decode(feats)`: if the walk resolves to START at position -1
(the source's `assert`), return the terminal score at the best tag and the
walk with START popped off and reversed; otherwise fail (assertion error). -/
def viterbi_decode {T : ℕ} {α : Type*} [LinearOrderedCommRing α] [NeZero T]
    (M : Fin T → Fin T → α) (START STOP : Fin T) (feats : List (Fin T → α)) :
    Option (α × List (Fin T)) :=
  if (viterbiFullPath M START STOP feats).getLastD (viterbiBest M START STOP feats) = START
  then some (viterbiTerminalVar M START STOP feats (viterbiBest M START STOP feats),
    (viterbiFullPath M START STOP feats).dropLast.reverse)
  else none

/-- Structured form of the backpointer walk: the traced-back initial tag and
the (position-ordered) path body. -/
def traceRec {T : ℕ} : List (Fin T → Fin T) → Fin T → Fin T × List (Fin T)
  | [], b => (b, [])
  | p :: rest, b => ((traceRec rest (p b)).1, (traceRec rest (p b)).2 ++ [b])

theorem traceAux_ne_nil {T : ℕ} (l : List (Fin T → Fin T)) (b : Fin T) :
    traceAux l b ≠ [] := by
  cases l <;> simp [traceAux]

theorem traceAux_length {T : ℕ} :
    ∀ (l : List (Fin T → Fin T)) (b : Fin T), (traceAux l b).length = l.length + 1 := by
  intro l
  induction l with
  | nil => intro b; rfl
  | cons p rest ih => intro b; simp [traceAux, ih (p b)]

theorem traceRec_body_length {T : ℕ} :
    ∀ (l : List (Fin T → Fin T)) (b : Fin T), (traceRec l b).2.length = l.length := by
  intro l
  induction l with
  | nil => intro b; rfl
  | cons p rest ih => intro b; simp [traceRec, ih (p b)]

/-- The walk's last element and popped-and-reversed body coincide with the
structured form. -/
theorem traceAux_eq_traceRec {T : ℕ} :
    ∀ (l : List (Fin T → Fin T)) (b d : Fin T),
      (traceAux l b).getLastD d = (traceRec l b).1 ∧
      (traceAux l b).dropLast.reverse = (traceRec l b).2 := by
  intro l
  induction l with
  | nil => intro b d; exact ⟨rfl, rfl⟩
  | cons p rest ih =>
    intro b d
    constructor
    · show (b :: traceAux rest (p b)).getLastD d = _
      rw [List.getLastD_cons]
      exact (ih (p b) b).1
    · show (b :: traceAux rest (p b)).dropLast.reverse = _
      rw [List.dropLast_cons_of_ne_nil (traceAux_ne_nil rest (p b)), List.reverse_cons,
        (ih (p b) d).2]
      rfl

theorem lastTag_snoc {T : ℕ} (prev t : Fin T) (ts : List (Fin T)) :
    lastTag prev (ts ++ [t]) = t := by
  simp [lastTag, List.getLastD_concat]

theorem scoreLoop_snoc {T : ℕ} {α : Type*} [LinearOrderedCommRing α] (M : Fin T → Fin T → α) :
    ∀ (fs : List (Fin T → α)) (ts : List (Fin T)) (prev : Fin T) (f : Fin T → α)
      (t : Fin T), ts.length = fs.length →
      scoreLoop M (fs ++ [f]) prev (ts ++ [t])
        = scoreLoop M fs prev ts + (M t (lastTag prev ts) + f t) := by
  intro fs
  induction fs with
  | nil =>
    intro ts prev f t h
    cases ts with
    | nil =>
      show M t prev + f t + scoreLoop M [] t [] = 0 + (M t (lastTag prev []) + f t)
      simp [scoreLoop, lastTag]
    | cons a as => simp at h
  | cons f0 fs0 ih =>
    intro ts prev f t h
    cases ts with
    | nil => simp at h
    | cons t0 ts0 =>
      show M t0 prev + f0 t0 + scoreLoop M (fs0 ++ [f]) t0 (ts0 ++ [t]) = _
      rw [ih ts0 t0 f t (by simpa using h), lastTag_cons]
      show _ = M t0 prev + f0 t0 + scoreLoop M fs0 t0 ts0 + (M t (lastTag t0 ts0) + f t)
      ring

/-- The invariant carried by the Viterbi fold: after processing the features
`done`, each entry `k` of the forward variable is the init-vector weight of
the traced-back initial tag plus the accumulated score of the traced path
ending at `k`, and the backpointer walk from `k` reconstructs a path of the
processed length ending at `k`. -/
def VInv {T : ℕ} {α : Type*} [LinearOrderedCommRing α] (M : Fin T → Fin T → α)
    (START : Fin T) (done : List (Fin T → α))
    (acc : (Fin T → α) × List (Fin T → Fin T)) : Prop :=
  acc.2.length = done.length ∧
  ∀ k, acc.1 k
      = initVvars START (traceRec acc.2.reverse k).1
        + scoreLoop M done (traceRec acc.2.reverse k).1 (traceRec acc.2.reverse k).2
    ∧ lastTag (traceRec acc.2.reverse k).1 (traceRec acc.2.reverse k).2 = k
    ∧ (traceRec acc.2.reverse k).2.length = done.length

theorem viterbiStep_inv {T : ℕ} {α : Type*} [LinearOrderedCommRing α] [NeZero T]
    (M : Fin T → Fin T → α) (START : Fin T) (done : List (Fin T → α))
    (acc : (Fin T → α) × List (Fin T → Fin T)) (f : Fin T → α)
    (h : VInv M START done acc) : VInv M START (done ++ [f]) (viterbiStep M acc f) := by
  obtain ⟨hlen, hinv⟩ := h
  set bp : Fin T → Fin T := fun k => argmaxIdx (fun j => acc.1 j + M k j) with hbp
  have hacc2 : (viterbiStep M acc f).2 = acc.2 ++ [bp] := rfl
  have hacc1 : ∀ k, (viterbiStep M acc f).1 k = acc.1 (bp k) + M k (bp k) + f k :=
    fun k => rfl
  constructor
  · rw [hacc2]
    simp [hlen]
  · intro k
    obtain ⟨hv, hlast, hblen⟩ := hinv (bp k)
    have hrev : (acc.2 ++ [bp]).reverse = bp :: acc.2.reverse := by
      rw [List.reverse_append, List.reverse_singleton]
      rfl
    have htr : traceRec ((viterbiStep M acc f).2.reverse) k
        = ((traceRec acc.2.reverse (bp k)).1, (traceRec acc.2.reverse (bp k)).2 ++ [k]) := by
      rw [hacc2, hrev]
      rfl
    refine ⟨?_, ?_, ?_⟩
    · rw [hacc1 k, htr]
      show _ = initVvars START (traceRec acc.2.reverse (bp k)).1
        + scoreLoop M (done ++ [f]) (traceRec acc.2.reverse (bp k)).1
            ((traceRec acc.2.reverse (bp k)).2 ++ [k])
      rw [scoreLoop_snoc M done (traceRec acc.2.reverse (bp k)).2 _ f k hblen, hlast, hv]
      ring
    · rw [htr]
      exact lastTag_snoc _ _ _
    · rw [htr]
      show ((traceRec acc.2.reverse (bp k)).2 ++ [k]).length = _
      simp [hblen]

theorem viterbiFold_inv_aux {T : ℕ} {α : Type*} [LinearOrderedCommRing α] [NeZero T]
    (M : Fin T → Fin T → α) (START : Fin T) :
    ∀ (rest done : List (Fin T → α)) (acc : (Fin T → α) × List (Fin T → Fin T)),
      VInv M START done acc →
      VInv M START (done ++ rest) (rest.foldl (viterbiStep M) acc) := by
  intro rest
  induction rest with
  | nil =>
    intro done acc h
    simpa using h
  | cons f fs ih =>
    intro done acc h
    have h1 := viterbiStep_inv M START done acc f h
    have h2 := ih (done ++ [f]) (viterbiStep M acc f) h1
    rw [List.foldl_cons]
    have : done ++ [f] ++ fs = done ++ f :: fs := by simp
    rwa [this] at h2

theorem viterbiFold_inv {T : ℕ} {α : Type*} [LinearOrderedCommRing α] [NeZero T]
    (M : Fin T → Fin T → α) (START : Fin T) (feats : List (Fin T → α)) :
    VInv M START feats (viterbiFold M START feats) := by
  have h0 : VInv M START [] ((initVvars START : Fin T → α), []) := by
    refine ⟨rfl, fun k => ⟨?_, rfl, rfl⟩⟩
    show initVvars START k = initVvars START k + scoreLoop M [] k []
    simp [scoreLoop]
  have := viterbiFold_inv_aux M START feats [] (initVvars START, []) h0
  simpa [viterbiFold] using this

/-- If `_viterbi_decode` returns, the returned score is exactly
`_score_sentence` of the returned path, and the path has the sentence's
length. -/
theorem viterbi_decode_some_spec {T : ℕ} {α : Type*} [LinearOrderedCommRing α] [NeZero T]
    (M : Fin T → Fin T → α) (START STOP : Fin T) (feats : List (Fin T → α))
    (s : α) (p : List (Fin T)) (h : viterbi_decode M START STOP feats = some (s, p)) :
    scoreSentence M START STOP feats p = s ∧ p.length = feats.length ∧
    s = viterbiTerminalVar M START STOP feats (viterbiBest M START STOP feats) := by
  unfold viterbi_decode at h
  by_cases hc : (viterbiFullPath M START STOP feats).getLastD
      (viterbiBest M START STOP feats) = START
  swap
  · rw [if_neg hc] at h
    cases h
  rw [if_pos hc] at h
  have hpair := Option.some.inj h
  have hs : viterbiTerminalVar M START STOP feats (viterbiBest M START STOP feats) = s :=
    congrArg Prod.fst hpair
  have hp : (viterbiFullPath M START STOP feats).dropLast.reverse = p :=
    congrArg Prod.snd hpair
  set best := viterbiBest M START STOP feats with hbest
  have htr := traceAux_eq_traceRec (viterbiFold M START feats).2.reverse best best
  have hstart : (traceRec (viterbiFold M START feats).2.reverse best).1 = START := by
    rw [← htr.1]
    exact hc
  have hpeq : p = (traceRec (viterbiFold M START feats).2.reverse best).2 := by
    rw [← hp]
    exact htr.2
  obtain ⟨-, hinv⟩ := viterbiFold_inv M START feats
  obtain ⟨hv, hlast, hblen⟩ := hinv best
  rw [hstart] at hv hlast
  refine ⟨?_, ?_, hs.symm⟩
  · rw [← hs]
    show scoreSentence M START STOP feats p
      = (viterbiFold M START feats).1 best + M STOP best
    unfold scoreSentence
    rw [hpeq, hv, hlast]
    simp [initVvars]
  · rw [hpeq]
    exact hblen

/-- C4: round-trip agreement of decoder and scorer: whenever `_viterbi_decode`
returns `(score, path)` on a nonempty sentence, `_score_sentence` applied to
the returned path gives back exactly the decoder's accumulated best-path
score.  (Proved over any linearly ordered field, hence for the reals.) -/
theorem viterbi_score_roundtrip {T : ℕ} {α : Type*} [LinearOrderedCommRing α] [NeZero T]
    (M : Fin T → Fin T → α) (START STOP : Fin T) (feats : List (Fin T → α))
    (s : α) (p : List (Fin T)) (hL : 0 < feats.length)
    (h : viterbi_decode M START STOP feats = some (s, p)) :
    scoreSentence M START STOP feats p = s :=
  (viterbi_decode_some_spec M START STOP feats s p h).1

set_option maxRecDepth 4000 in
theorem viterbi_score_roundtrip_witness :
    scoreSentence (initTransitions (fun _ _ => (0 : ℤ)) (1 : Fin 3) 2) 1 2
      ([fun _ => 0] : List (Fin 3 → ℤ)) ([0] : List (Fin 3)) = 0 :=
  viterbi_score_roundtrip (initTransitions (fun _ _ => (0 : ℤ)) (1 : Fin 3) 2) 1 2
    ([fun _ => 0] : List (Fin 3 → ℤ)) 0 ([0] : List (Fin 3)) (by decide) (by decide)

/-- The Viterbi forward variable dominates the accumulated score of every
path of matching length ending at the same tag. -/
theorem viterbiFold_ge_path {T : ℕ} {α : Type*} [LinearOrderedCommRing α] [NeZero T]
    (M : Fin T → Fin T → α) :
    ∀ (feats : List (Fin T → α)) (seq : List (Fin T)) (fv : Fin T → α)
      (bps : List (Fin T → Fin T)) (prev : Fin T), seq.length = feats.length →
      fv prev + scoreLoop M feats prev seq
        ≤ (feats.foldl (viterbiStep M) (fv, bps)).1 (lastTag prev seq) := by
  intro feats
  induction feats with
  | nil =>
    intro seq fv bps prev h
    cases seq with
    | nil => simp [scoreLoop, lastTag]
    | cons a as => simp at h
  | cons f fs ih =>
    intro seq fv bps prev h
    cases seq with
    | nil => simp at h
    | cons t ts =>
      have hlen : ts.length = fs.length := by simpa using h
      rw [List.foldl_cons, lastTag_cons]
      show fv prev + (M t prev + f t + scoreLoop M fs t ts) ≤ _
      have step1 : fv prev + M t prev + f t ≤ (viterbiStep M (fv, bps) f).1 t := by
        show _ ≤ fv (argmaxIdx fun j => fv j + M t j)
          + M t (argmaxIdx fun j => fv j + M t j) + f t
        have hmax := le_argmaxIdx (fun j => fv j + M t j) prev
        simp only at hmax
        linarith
      have step2 := ih ts (viterbiStep M (fv, bps) f).1 (viterbiStep M (fv, bps) f).2 t hlen
      calc fv prev + (M t prev + f t + scoreLoop M fs t ts)
          = (fv prev + M t prev + f t) + scoreLoop M fs t ts := by ring
        _ ≤ (viterbiStep M (fv, bps) f).1 t + scoreLoop M fs t ts :=
            add_le_add_right step1 _
        _ ≤ _ := step2

/-- The terminal best score of the Viterbi pass dominates `_score_sentence`
of every tag sequence of the sentence's length. -/
theorem viterbi_terminal_ge_scoreSentence {T : ℕ} {α : Type*} [LinearOrderedCommRing α]
    [NeZero T] (M : Fin T → Fin T → α) (START STOP : Fin T) (feats : List (Fin T → α))
    (seq : List (Fin T)) (h : seq.length = feats.length) :
    scoreSentence M START STOP feats seq
      ≤ viterbiTerminalVar M START STOP feats (viterbiBest M START STOP feats) := by
  have h1 := viterbiFold_ge_path M feats seq (initVvars START) [] START h
  have h0 : (initVvars START : Fin T → α) START = 0 := if_pos rfl
  rw [h0, zero_add] at h1
  have h2 := le_argmaxIdx (viterbiTerminalVar M START STOP feats) (lastTag START seq)
  have h3 : scoreSentence M START STOP feats seq
      ≤ viterbiTerminalVar M START STOP feats (lastTag START seq) := by
    show _ ≤ (viterbiFold M START feats).1 (lastTag START seq) + M STOP (lastTag START seq)
    unfold scoreSentence
    exact add_le_add_right h1 _
  exact le_trans h3 h2

/-- Under the sentinel structure every entry of the transition matrix is at
most the bound on the regular entries. -/
theorem entry_le_of_sentinel {T : ℕ} {α : Type*} [LinearOrderedCommRing α]
    (M : Fin T → Fin T → α) (START STOP : Fin T) (B : α)
    (hss : ∀ j, M START j = -10000) (hcs : ∀ i, M i STOP = -10000)
    (hB : ∀ i j, i ≠ START → j ≠ STOP → |M i j| ≤ B) (hB0 : 0 ≤ B) :
    ∀ i j, M i j ≤ B := by
  intro i j
  by_cases hi : i = START
  · rw [hi, hss j]; linarith
  · by_cases hj : j = STOP
    · rw [hj, hcs i]; linarith
    · exact le_trans (le_abs_self _) (hB i j hi hj)

theorem scoreLoop_le_bound {T : ℕ} {α : Type*} [LinearOrderedCommRing α]
    (M : Fin T → Fin T → α) (B : α) (hM : ∀ i j, M i j ≤ B) :
    ∀ (feats : List (Fin T → α)) (seq : List (Fin T)) (prev : Fin T),
      seq.length = feats.length → (∀ f ∈ feats, ∀ k, f k ≤ B) →
      scoreLoop M feats prev seq ≤ 2 * (feats.length : α) * B := by
  intro feats
  induction feats with
  | nil =>
    intro seq prev h hf
    cases seq with
    | nil => simp [scoreLoop]
    | cons a as => simp at h
  | cons f fs ih =>
    intro seq prev h hf
    cases seq with
    | nil => simp at h
    | cons t ts =>
      have hlen : ts.length = fs.length := by simpa using h
      have h1 : M t prev ≤ B := hM t prev
      have h2 : f t ≤ B := hf f (List.mem_cons_self f fs) t
      have h3 := ih ts t hlen (fun g hg k => hf g (List.mem_cons_of_mem f hg) k)
      show M t prev + f t + scoreLoop M fs t ts ≤ 2 * ((f :: fs).length : α) * B
      have hcast : 2 * (((f :: fs).length : ℕ) : α) * B
          = 2 * ((fs.length : ℕ) : α) * B + 2 * B := by
        push_cast [List.length_cons]
        ring
      rw [hcast]
      linarith

/-- A path that visits START or STOP pays a -10000 sentinel somewhere, so its
full sentence score is at most `2·L·B - 10000`. -/
theorem scoreSentence_dirty_le {T : ℕ} {α : Type*} [LinearOrderedCommRing α]
    (M : Fin T → Fin T → α) (START STOP : Fin T) (B : α)
    (hss : ∀ j, M START j = -10000) (hcs : ∀ i, M i STOP = -10000)
    (hM : ∀ i j, M i j ≤ B) (hB0 : 0 ≤ B) :
    ∀ (seq : List (Fin T)) (feats : List (Fin T → α)) (prev : Fin T),
      seq.length = feats.length → (∀ f ∈ feats, ∀ k, f k ≤ B) →
      (∃ t ∈ seq, t = START ∨ t = STOP) →
      scoreLoop M feats prev seq + M STOP (lastTag prev seq)
        ≤ 2 * (feats.length : α) * B - 10000 := by
  intro seq
  induction seq with
  | nil =>
    intro feats prev h hf hdirty
    obtain ⟨t, ht, _⟩ := hdirty
    cases ht
  | cons t ts ih =>
    intro feats prev h hf hdirty
    cases feats with
    | nil => simp at h
    | cons f fs =>
      have hlen : ts.length = fs.length := by simpa using h
      have hffs : ∀ g ∈ fs, ∀ k, g k ≤ B :=
        fun g hg k => hf g (List.mem_cons_of_mem f hg) k
      have hcast : 2 * (((f :: fs).length : ℕ) : α) * B
          = 2 * ((fs.length : ℕ) : α) * B + 2 * B := by
        push_cast [List.length_cons]
        ring
      show scoreLoop M (f :: fs) prev (t :: ts) + M STOP (lastTag prev (t :: ts))
        ≤ 2 * (((f :: fs).length : ℕ) : α) * B - 10000
      rw [lastTag_cons, hcast]
      show M t prev + f t + scoreLoop M fs t ts + M STOP (lastTag t ts) ≤ _
      by_cases htS : t = START
      · have h1 : M t prev = -10000 := by rw [htS]; exact hss prev
        have h2 : f t ≤ B := hf f (List.mem_cons_self f fs) t
        have h3 := scoreLoop_le_bound M B hM fs ts t hlen hffs
        have h4 : M STOP (lastTag t ts) ≤ B := hM _ _
        linarith
      by_cases htP : t = STOP
      · cases ts with
        | nil =>
          cases fs with
          | nil =>
            have h1 : M t prev ≤ B := hM t prev
            have h2 : f t ≤ B := hf f (List.mem_cons_self f []) t
            have h4 : M STOP (lastTag t []) = -10000 := by
              show M STOP t = -10000
              rw [htP]; exact hcs STOP
            simp only [scoreLoop, List.length_nil, Nat.cast_zero]
            linarith
          | cons g gs => simp at hlen
        | cons t2 ts2 =>
          cases fs with
          | nil => simp at hlen
          | cons f2 fs2 =>
            have hlen2 : ts2.length = fs2.length := by simpa using hlen
            have h1 : M t prev ≤ B := hM t prev
            have h2 : f t ≤ B := hf f (List.mem_cons_self f _) t
            have h3 : M t2 t = -10000 := by rw [htP]; exact hcs t2
            have h4 : f2 t2 ≤ B := hffs f2 (List.mem_cons_self f2 fs2) t2
            have h5 := scoreLoop_le_bound M B hM fs2 ts2 t2 hlen2
              (fun g hg k => hffs g (List.mem_cons_of_mem f2 hg) k)
            have h6 : M STOP (lastTag t (t2 :: ts2)) ≤ B := hM _ _
            show M t prev + f t + (M t2 t + f2 t2 + scoreLoop M fs2 t2 ts2)
              + M STOP (lastTag t (t2 :: ts2)) ≤ _
            rw [lastTag_cons]
            have hcast2 : 2 * ((fs2.length : ℕ) : α) * B + 2 * B
            = 2 * (((f2 :: fs2).length : ℕ) : α) * B := by
              push_cast [List.length_cons]
              ring
            rw [lastTag_cons] at h6
            push_cast [List.length_cons]
            push_cast [List.length_cons] at h6
            nlinarith [h5, h6]
      · -- head is a regular tag: the sentinel visit happens in the tail
        obtain ⟨d, hd, hdor⟩ := hdirty
        have hdts : d ∈ ts := by
          rcases List.mem_cons.mp hd with rfl | hmem
          · cases hdor with
            | inl hh => exact absurd hh htS
            | inr hh => exact absurd hh htP
          · exact hmem
        have hih := ih fs t hlen hffs ⟨d, hdts, hdor⟩
        have h1 : M t prev ≤ B := hM t prev
        have h2 : f t ≤ B := hf f (List.mem_cons_self f fs) t
        linarith

theorem lastTag_replicate {T : ℕ} (prev r : Fin T) :
    ∀ n, lastTag prev (List.replicate (n + 1) r) = r := by
  intro n
  induction n generalizing prev with
  | zero => rfl
  | succ m ih =>
    rw [List.replicate_succ, lastTag_cons]
    exact ih r

/-- A path that stays on one regular tag loses at most `B` per term. -/
theorem scoreLoop_replicate_ge {T : ℕ} {α : Type*} [LinearOrderedCommRing α]
    (M : Fin T → Fin T → α) (START STOP : Fin T) (B : α) (r : Fin T)
    (hB : ∀ i j, i ≠ START → j ≠ STOP → |M i j| ≤ B)
    (hr1 : r ≠ START) (hr2 : r ≠ STOP) :
    ∀ (feats : List (Fin T → α)) (prev : Fin T), prev ≠ STOP →
      (∀ f ∈ feats, ∀ k, -B ≤ f k) →
      -(2 * (feats.length : α) * B) ≤ scoreLoop M feats prev (List.replicate feats.length r) := by
  intro feats
  induction feats with
  | nil =>
    intro prev hprev hf
    simp [scoreLoop]
  | cons f fs ih =>
    intro prev hprev hf
    have h1 : -B ≤ M r prev := neg_le_of_abs_le (hB r prev hr1 hprev)
    have h2 : -B ≤ f r := hf f (List.mem_cons_self f fs) r
    have h3 := ih r hr2 (fun g hg k => hf g (List.mem_cons_of_mem f hg) k)
    show -(2 * (((f :: fs).length : ℕ) : α) * B)
      ≤ scoreLoop M (f :: fs) prev (List.replicate (fs.length + 1) r)
    rw [List.replicate_succ]
    show _ ≤ M r prev + f r + scoreLoop M fs r (List.replicate fs.length r)
    have hcast : 2 * (((f :: fs).length : ℕ) : α) * B
        = 2 * ((fs.length : ℕ) : α) * B + 2 * B := by
      push_cast [List.length_cons]
      ring
    rw [hcast]
    linarith

/-- C5: with the sentinel rows/columns at -10000 and all regular transition
and emission entries small enough to be dominated, the path returned by
`_viterbi_decode` never contains the START or the STOP tag. -/
theorem viterbi_no_sentinel {T : ℕ} {α : Type*} [LinearOrderedCommRing α] [NeZero T]
    (M : Fin T → Fin T → α) (START STOP : Fin T) (feats : List (Fin T → α))
    (B : α) (r : Fin T)
    (hss : ∀ j, M START j = -10000) (hcs : ∀ i, M i STOP = -10000)
    (hB : ∀ i j, i ≠ START → j ≠ STOP → |M i j| ≤ B) (hB0 : 0 ≤ B)
    (hfB : ∀ f ∈ feats, ∀ k, |f k| ≤ B)
    (hne : START ≠ STOP) (hr1 : r ≠ START) (hr2 : r ≠ STOP)
    (hdom : (4 * (feats.length : α) + 1) * B < 10000)
    (s : α) (p : List (Fin T)) (h : viterbi_decode M START STOP feats = some (s, p)) :
    ∀ t ∈ p, t ≠ START ∧ t ≠ STOP := by
  intro t ht
  by_contra hcon
  have hdirty : t = START ∨ t = STOP := by tauto
  obtain ⟨hscore, hplen, hterm⟩ := viterbi_decode_some_spec M START STOP feats s p h
  have hM : ∀ i j, M i j ≤ B := entry_le_of_sentinel M START STOP B hss hcs hB hB0
  have hfle : ∀ f ∈ feats, ∀ k, f k ≤ B :=
    fun f hf k => le_trans (le_abs_self _) (hfB f hf k)
  have hfge : ∀ f ∈ feats, ∀ k, -B ≤ f k :=
    fun f hf k => neg_le_of_abs_le (hfB f hf k)
  -- the returned (dirty) path is scored at most 2LB - 10000
  have hub : scoreSentence M START STOP feats p ≤ 2 * (feats.length : α) * B - 10000 :=
    scoreSentence_dirty_le M START STOP B hss hcs hM hB0 p feats START hplen hfle
      ⟨t, ht, hdirty⟩
  -- the all-regular path is scored at least -(2LB + B), and the decoder's
  -- score dominates it
  have hrep : (List.replicate feats.length r).length = feats.length := by simp
  have hlb1 := scoreLoop_replicate_ge M START STOP B r hB hr1 hr2 feats START
    (fun hST => hne hST) hfge
  have hlb2 : -(2 * (feats.length : α) * B + B)
      ≤ scoreSentence M START STOP feats (List.replicate feats.length r) := by
    unfold scoreSentence
    have hL1 : 1 ≤ feats.length := by
      have : p ≠ [] := List.ne_nil_of_mem ht
      have : 0 < p.length := List.length_pos.mpr this
      omega
    obtain ⟨n, hn⟩ : ∃ n, feats.length = n + 1 := ⟨feats.length - 1, by omega⟩
    have hlast : lastTag START (List.replicate feats.length r) = r := by
      rw [hn]
      exact lastTag_replicate START r n
    have hstop : -B ≤ M STOP r :=
      neg_le_of_abs_le (hB STOP r (fun hPS => hne hPS.symm) hr2)
    rw [hlast]
    rw [hn] at hlb1 ⊢
    linarith
  have hge := viterbi_terminal_ge_scoreSentence M START STOP feats
    (List.replicate feats.length r) hrep
  rw [← hterm] at hge
  rw [hscore] at hub
  have hexp : (4 * (feats.length : α) + 1) * B
      = 2 * (feats.length : α) * B + (2 * (feats.length : α) * B + B) := by ring
  rw [hexp] at hdom
  linarith

set_option maxRecDepth 4000 in
theorem viterbi_no_sentinel_witness :
    (0 : Fin 3) ≠ 1 ∧ (0 : Fin 3) ≠ 2 :=
  viterbi_no_sentinel (initTransitions (fun _ _ => (0 : ℤ)) (1 : Fin 3) 2) 1 2
    ([fun _ => 0] : List (Fin 3 → ℤ)) 0 0
    (by decide) (by decide) (by decide) (by decide) (by decide)
    (by decide) (by decide) (by decide) (by decide)
    0 ([0] : List (Fin 3)) (by decide) 0 (by decide)

theorem traceRec_fst_eq_foldl {T : ℕ} :
    ∀ (l : List (Fin T → Fin T)) (b : Fin T),
      (traceRec l b).1 = l.foldl (fun x p => p x) b := by
  intro l
  induction l with
  | nil => intro b; rfl
  | cons p rest ih => intro b; simp [traceRec, ih (p b)]

theorem viterbiFold_bps_grow {T : ℕ} {α : Type*} [LinearOrderedCommRing α] [NeZero T]
    (M : Fin T → Fin T → α) :
    ∀ (rest : List (Fin T → α)) (acc : (Fin T → α) × List (Fin T → Fin T)),
      ∃ l, (rest.foldl (viterbiStep M) acc).2 = acc.2 ++ l := by
  intro rest
  induction rest with
  | nil => intro acc; exact ⟨[], by simp⟩
  | cons f fs ih =>
    intro acc
    obtain ⟨l, hl⟩ := ih (viterbiStep M acc f)
    refine ⟨(fun k => argmaxIdx (fun j => acc.1 j + M k j)) :: l, ?_⟩
    rw [List.foldl_cons, hl]
    show (viterbiStep M acc f).2 ++ l = _
    show (acc.2 ++ [fun k => argmaxIdx (fun j => acc.1 j + M k j)]) ++ l = _
    simp

/-- With dominant sentinels, the backpointer computed at the first position
maps every tag back to START. -/
theorem first_bp_eq_START {T : ℕ} {α : Type*} [LinearOrderedCommRing α] [NeZero T]
    (M : Fin T → Fin T → α) (START STOP : Fin T) (B : α)
    (hss : ∀ j, M START j = -10000) (hcs : ∀ i, M i STOP = -10000)
    (hB : ∀ i j, i ≠ START → j ≠ STOP → |M i j| ≤ B) (hB0 : 0 ≤ B)
    (hne : START ≠ STOP) (hdom : 2 * B < 10000) :
    ∀ k, argmaxIdx (fun j => initVvars START j + M k j) = START := by
  intro k
  apply argmaxIdx_eq_of_forall_lt
  intro j hj
  have hjS : (initVvars START : Fin T → α) j = -10000 := if_neg hj
  have hSS : (initVvars START : Fin T → α) START = 0 := if_pos rfl
  simp only [hjS, hSS, zero_add]
  by_cases hk : k = START
  · rw [hk, hss j, hss START]
    linarith
  · have h1 : -B ≤ M k START := neg_le_of_abs_le (hB k START hk hne)
    have h2 : M k j ≤ B := entry_le_of_sentinel M START STOP B hss hcs hB hB0 k j
    linarith

/-- Under the sentinel constraints, the backpointer walk of a nonempty
sentence always resolves to START at position -1. -/
theorem viterbi_trace_start_eq {T : ℕ} {α : Type*} [LinearOrderedCommRing α] [NeZero T]
    (M : Fin T → Fin T → α) (START STOP : Fin T) (feats : List (Fin T → α)) (B : α)
    (hss : ∀ j, M START j = -10000) (hcs : ∀ i, M i STOP = -10000)
    (hB : ∀ i j, i ≠ START → j ≠ STOP → |M i j| ≤ B) (hB0 : 0 ≤ B)
    (hne : START ≠ STOP) (hdom : 2 * B < 10000) (hL : 0 < feats.length) :
    (viterbiFullPath M START STOP feats).getLastD (viterbiBest M START STOP feats)
      = START := by
  obtain ⟨f, fs, rfl⟩ : ∃ f fs, feats = f :: fs := by
    cases feats with
    | nil => simp at hL
    | cons f fs => exact ⟨f, fs, rfl⟩
  unfold viterbiFullPath
  rw [(traceAux_eq_traceRec _ _ _).1, traceRec_fst_eq_foldl]
  have hfold : viterbiFold M START (f :: fs)
      = fs.foldl (viterbiStep M) (viterbiStep M (initVvars START, []) f) := rfl
  obtain ⟨l, hl⟩ := viterbiFold_bps_grow M fs (viterbiStep M (initVvars START, []) f)
  have hbps : (viterbiFold M START (f :: fs)).2
      = (fun k => argmaxIdx (fun j => initVvars START j + M k j)) :: l := by
    rw [hfold, hl]
    rfl
  rw [hbps, List.reverse_cons, List.foldl_append]
  exact first_bp_eq_START M START STOP B hss hcs hB hB0 hne hdom _

/-- C6: under the sentinel constraints, for a nonempty sentence the
backpointer walk always resolves to START at position -1, so the source's
`assert` never fails and `_viterbi_decode` returns the reconstructed
tail-first walk reversed with START popped off, of the sentence's length;
and whenever a walk does not resolve to START the function fails loudly
(is modelled as returning nothing) instead of silently correcting the path. -/
theorem viterbi_assert_spec {T : ℕ} {α : Type*} [LinearOrderedCommRing α] [NeZero T]
    (M : Fin T → Fin T → α) (START STOP : Fin T) (feats : List (Fin T → α)) (B : α)
    (hss : ∀ j, M START j = -10000) (hcs : ∀ i, M i STOP = -10000)
    (hB : ∀ i j, i ≠ START → j ≠ STOP → |M i j| ≤ B) (hB0 : 0 ≤ B)
    (hne : START ≠ STOP) (hdom : 2 * B < 10000) (hL : 0 < feats.length) :
    (viterbiFullPath M START STOP feats).getLastD (viterbiBest M START STOP feats)
        = START ∧
    viterbi_decode M START STOP feats
      = some (viterbiTerminalVar M START STOP feats (viterbiBest M START STOP feats),
          (viterbiFullPath M START STOP feats).dropLast.reverse) ∧
    ((viterbiFullPath M START STOP feats).dropLast.reverse).length = feats.length ∧
    (∀ (M' : Fin T → Fin T → α) (feats' : List (Fin T → α)),
      (viterbiFullPath M' START STOP feats').getLastD (viterbiBest M' START STOP feats')
          ≠ START →
      viterbi_decode M' START STOP feats' = none) := by
  have h1 := viterbi_trace_start_eq M START STOP feats B hss hcs hB hB0 hne hdom hL
  refine ⟨h1, ?_, ?_, ?_⟩
  · unfold viterbi_decode
    rw [if_pos h1]
  · rw [List.length_reverse, List.length_dropLast]
    unfold viterbiFullPath
    rw [traceAux_length, List.length_reverse, (viterbiFold_inv M START feats).1]
    simp
  · intro M' feats' hne'
    unfold viterbi_decode
    rw [if_neg hne']

set_option maxRecDepth 4000 in
theorem viterbi_assert_spec_witness :
    (viterbiFullPath (initTransitions (fun _ _ => (0 : ℤ)) (1 : Fin 3) 2) 1 2
        ([fun _ => 0] : List (Fin 3 → ℤ))).getLastD
        (viterbiBest (initTransitions (fun _ _ => (0 : ℤ)) (1 : Fin 3) 2) 1 2
          ([fun _ => 0] : List (Fin 3 → ℤ))) = 1 ∧
    viterbi_decode (initTransitions (fun _ _ => (0 : ℤ)) (1 : Fin 3) 2) 1 2
        ([fun _ => 0] : List (Fin 3 → ℤ))
      = some (viterbiTerminalVar (initTransitions (fun _ _ => (0 : ℤ)) (1 : Fin 3) 2) 1 2
          ([fun _ => 0] : List (Fin 3 → ℤ))
          (viterbiBest (initTransitions (fun _ _ => (0 : ℤ)) (1 : Fin 3) 2) 1 2
            ([fun _ => 0] : List (Fin 3 → ℤ))),
        (viterbiFullPath (initTransitions (fun _ _ => (0 : ℤ)) (1 : Fin 3) 2) 1 2
          ([fun _ => 0] : List (Fin 3 → ℤ))).dropLast.reverse) ∧
    ((viterbiFullPath (initTransitions (fun _ _ => (0 : ℤ)) (1 : Fin 3) 2) 1 2
        ([fun _ => 0] : List (Fin 3 → ℤ))).dropLast.reverse).length
      = ([fun _ => 0] : List (Fin 3 → ℤ)).length ∧
    (∀ (M' : Fin 3 → Fin 3 → ℤ) (feats' : List (Fin 3 → ℤ)),
      (viterbiFullPath M' 1 2 feats').getLastD (viterbiBest M' 1 2 feats') ≠ 1 →
      viterbi_decode M' 1 2 feats' = none) :=
  viterbi_assert_spec (initTransitions (fun _ _ => (0 : ℤ)) (1 : Fin 3) 2) 1 2
    ([fun _ => 0] : List (Fin 3 → ℤ)) 0
    (by decide) (by decide) (by decide) (by decide) (by decide) (by decide) (by decide)
